import Mathlib

/-!
Verification of the content-factory summarization / scheduling core
(`src/podcast-to-social/src/post_generator.py` and
`src/podcast-to-social/src/scheduler.py`).

Python strings are modelled as `List Char`.  The chunker
`_chunk_transcript` is embedded with its size target as an explicit
parameter `target`; the source fixes `target = CHUNK_SIZE = 40000`.
The `±300`-character search margin is kept literal.  All theorems about
the chunker carry the hypothesis `300 ≤ target`, because for smaller
targets Python's `str.rfind` would receive a negative start index
(interpreted relative to the end of the string), a situation the source
never creates; within that regime the embedding matches the source
exactly.
-/

/-- Python `str.lstrip()` on a list of characters: drop leading
whitespace.  (`Char.isWhitespace` covers the ASCII whitespace the
transcripts contain.) -/
def lstrip : List Char → List Char
  | [] => []
  | c :: cs => if c.isWhitespace then lstrip cs else c :: cs

/-- Python `s.rfind(" ", start, stop)` for `0 ≤ start`: the greatest
index `i` with `start ≤ i < min stop (length s)` whose character is a
space, if any (`none` models Python's `-1`). -/
def rfind_space (s : List Char) (start stop : Nat) : Option Nat :=
  ((List.range (min stop s.length)).filter
    (fun i => decide (start ≤ i) && decide (s.getD i 'x' = ' '))).getLast?

/-- `CHUNK_SIZE = 40_000` from `post_generator.py`. -/
def CHUNK_SIZE : Nat := 40000

/-- The split point chosen by one iteration of `_chunk_transcript`'s
loop: `split_at = remaining.rfind(" ", boundary - 300, boundary + 300)`,
falling back to `boundary` (the target size) when no space is found. -/
def split_at (target : Nat) (remaining : List Char) : Nat :=
  (rfind_space remaining (target - 300) (target + 300)).getD target

/-- The remaining text after one iteration of the loop:
`remaining = remaining[split_at:].lstrip()`. -/
def next_remaining (target : Nat) (remaining : List Char) : List Char :=
  lstrip (remaining.drop (split_at target remaining))

/-- The `while len(remaining) > CHUNK_SIZE` loop of `_chunk_transcript`,
together with the trailing `if remaining: chunks.append(remaining)`.
The guard `rest.length < remaining.length` makes the recursion
well-founded; the `else` branch is unreachable whenever `1 ≤ target`
(see `next_remaining_lt`), in particular for the source's
`target = CHUNK_SIZE`. -/
def chunk_loop (target : Nat) (remaining : List Char) : List (List Char) :=
  if remaining.length ≤ target then
    if remaining.isEmpty then [] else [remaining]
  else
    let rest := next_remaining target remaining
    if h : rest.length < remaining.length then
      remaining.take (split_at target remaining) :: chunk_loop target rest
    else
      [remaining]
termination_by remaining.length

/-- `_chunk_transcript(transcript)` from `post_generator.py`, with the
chunk-size target as an explicit parameter (the source passes
`CHUNK_SIZE`).  Transcripts of at most `target` characters are returned
whole — including the empty transcript, which yields `[""]`. -/
def chunk_transcript (target : Nat) (transcript : List Char) : List (List Char) :=
  if transcript.length ≤ target then [transcript]
  else chunk_loop target transcript

/-- Every iteration of the chunking loop found a space: the
`remaining.rfind(...)` call never returned `-1`, so no chunk boundary
was forced mid-word.  Mirrors the recursion of `chunk_loop`. -/
def clean_splits (target : Nat) (remaining : List Char) : Bool :=
  if remaining.length ≤ target then true
  else if (rfind_space remaining (target - 300) (target + 300)).isSome then
    let rest := next_remaining target remaining
    if h : rest.length < remaining.length then clean_splits target rest
    else true
  else false
termination_by remaining.length

/-- Python `s.split()`: the whitespace-delimited words of a string, in
order, with no empty words. -/
def words : List Char → List (List Char)
  | [] => []
  | c :: cs =>
    if c.isWhitespace then words cs
    else (c :: cs.takeWhile (fun d => !d.isWhitespace)) ::
         words (cs.dropWhile (fun d => !d.isWhitespace))
termination_by s => s.length
decreasing_by
· simp only [List.length_cons]; omega
· have := (List.dropWhile_sublist (l := cs) (fun d => !d.isWhitespace)).length_le
  simp only [List.length_cons]; omega

/-- Python `" ".join(chunks)`: concatenation with a single space between
consecutive chunks. -/
def join_spaced : List (List Char) → List Char
  | [] => []
  | [c] => c
  | c :: d :: cs => c ++ ' ' :: join_spaced (d :: cs)

/-! ### Basic facts about the string primitives -/

theorem lstrip_length_le (s : List Char) : (lstrip s).length ≤ s.length := by
  induction s with
  | nil => simp [lstrip]
  | cons c cs ih =>
    simp only [lstrip]
    split
    · exact le_trans ih (by simp)
    · simp

theorem lstrip_cons_of_ws {c : Char} (hc : c.isWhitespace = true) (cs : List Char) :
    lstrip (c :: cs) = lstrip cs := by
  simp [lstrip, hc]

theorem rfind_space_some {s : List Char} {start stop i : Nat}
    (h : rfind_space s start stop = some i) :
    start ≤ i ∧ i < stop ∧ i < s.length ∧ s.getD i 'x' = ' ' := by
  have hmem : i ∈ (List.range (min stop s.length)).filter
      (fun i => decide (start ≤ i) && decide (s.getD i 'x' = ' ')) :=
    List.mem_of_mem_getLast? h
  rw [List.mem_filter, List.mem_range] at hmem
  obtain ⟨hlt, hp⟩ := hmem
  simp only [Bool.and_eq_true, decide_eq_true_eq] at hp
  exact ⟨hp.1, lt_of_lt_of_le hlt (min_le_left _ _),
    lt_of_lt_of_le hlt (min_le_right _ _), hp.2⟩

theorem rfind_space_none {s : List Char} {start stop : Nat}
    (h : rfind_space s start stop = none) :
    ∀ i, start ≤ i → i < stop → i < s.length → s.getD i 'x' ≠ ' ' := by
  intro i h1 h2 h3 hsp
  rw [rfind_space, List.getLast?_eq_none_iff, List.filter_eq_nil_iff] at h
  exact h i (List.mem_range.mpr (lt_min h2 h3))
    (by simp only [Bool.and_eq_true, decide_eq_true_eq]; exact ⟨h1, hsp⟩)

/-- One iteration of the chunking loop strictly shrinks the remaining
text, provided the target is positive and the loop condition
`len(remaining) > target` holds.  This is the progress fact behind the
loop's termination; it shows the defensive `else` branch of `chunk_loop`
is never taken for the source's parameters. -/
theorem next_remaining_lt (target : Nat) (rem : List Char)
    (ht : 1 ≤ target) (hl : target < rem.length) :
    (next_remaining target rem).length < rem.length := by
  rw [next_remaining, split_at]
  cases hfind : rfind_space rem (target - 300) (target + 300) with
  | none =>
    simp only [Option.getD_none]
    calc (lstrip (rem.drop target)).length
        ≤ (rem.drop target).length := lstrip_length_le _
      _ = rem.length - target := List.length_drop _ _
      _ < rem.length := by omega
  | some i =>
    simp only [Option.getD_some]
    obtain ⟨_, _, hilen, hsp⟩ := rfind_space_some hfind
    rcases Nat.eq_zero_or_pos i with hi0 | hipos
    · subst hi0
      rw [List.drop_zero]
      cases rem with
      | nil => simp at hilen
      | cons c cs =>
        have hc : c.isWhitespace = true := by
          simp only [List.getD_cons_zero] at hsp
          rw [hsp]; decide
        rw [lstrip_cons_of_ws hc]
        calc (lstrip cs).length ≤ cs.length := lstrip_length_le _
          _ < (c :: cs).length := by simp
    · calc (lstrip (rem.drop i)).length
          ≤ (rem.drop i).length := lstrip_length_le _
        _ = rem.length - i := List.length_drop _ _
        _ < rem.length := by omega

/-! ### Unfolding equations of the chunking loop -/

/-- Loop exit: when at most `target` characters remain, the loop body is
skipped and the remainder (if non-empty) becomes the last chunk. -/
theorem chunk_loop_exit (target : Nat) (rem : List Char) (h : rem.length ≤ target) :
    chunk_loop target rem = if rem.isEmpty then [] else [rem] := by
  rw [chunk_loop]
  simp [h]

/-- Loop step: while more than `target` characters remain, one chunk is
cut at `split_at` and the loop continues on the stripped remainder. -/
theorem chunk_loop_step (target : Nat) (rem : List Char)
    (ht : 1 ≤ target) (hl : target < rem.length) :
    chunk_loop target rem
      = rem.take (split_at target rem) :: chunk_loop target (next_remaining target rem) := by
  have hlt := next_remaining_lt target rem ht hl
  rw [chunk_loop]
  rw [if_neg (by omega), dif_pos hlt]

/-- Analogous step equation for `clean_splits` when the space search
succeeded. -/
theorem clean_splits_step (target : Nat) (rem : List Char)
    (ht : 1 ≤ target) (hl : target < rem.length)
    (hs : (rfind_space rem (target - 300) (target + 300)).isSome = true) :
    clean_splits target rem = clean_splits target (next_remaining target rem) := by
  have hlt := next_remaining_lt target rem ht hl
  rw [clean_splits]
  rw [if_neg (by omega), if_pos hs, dif_pos hlt]

/-- While the loop condition holds, `clean_splits` can only be `true` if
the space search succeeded at this iteration. -/
theorem clean_splits_isSome (target : Nat) (rem : List Char)
    (hl : target < rem.length) (hc : clean_splits target rem = true) :
    (rfind_space rem (target - 300) (target + 300)).isSome = true := by
  by_contra hns
  rw [clean_splits, if_neg (by omega), if_neg hns] at hc
  exact Bool.false_ne_true hc

/-! ### C7, C5, C10, C9 — chunker shape claims -/

/-- C7: for every transcript `T` with `len(T) ≤ target_size`, the
chunker returns exactly one chunk, equal to `T` (first branch of
`_chunk_transcript`). -/
theorem chunk_short_returns_whole (target : Nat) (t : List Char)
    (h : t.length ≤ target) : chunk_transcript target t = [t] := by
  rw [chunk_transcript, if_pos h]

theorem chunk_short_returns_whole_witness :
    chunk_transcript CHUNK_SIZE [' ', 'h', 'i'] = [[' ', 'h', 'i']] :=
  chunk_short_returns_whole CHUNK_SIZE [' ', 'h', 'i'] (by decide)

/-- Chunks emitted by the loop are never empty once the split point is
forced to be positive, i.e. once `300 < target`. -/
theorem chunk_loop_chunks_nonempty (target : Nat) (ht : 300 < target) :
    ∀ n (rem : List Char), rem.length ≤ n →
      ∀ c ∈ chunk_loop target rem, c ≠ [] := by
  intro n
  induction n using Nat.strong_induction_on with
  | _ n ih =>
    intro rem hn c hc
    by_cases hlen : rem.length ≤ target
    · rw [chunk_loop_exit _ _ hlen] at hc
      by_cases hne : rem.isEmpty
      · rw [if_pos hne] at hc
        simp at hc
      · rw [if_neg hne] at hc
        rw [List.mem_singleton] at hc
        subst hc
        simpa [List.isEmpty_iff] using hne
    · push_neg at hlen
      rw [chunk_loop_step _ _ (by omega) hlen] at hc
      rcases List.mem_cons.mp hc with hhd | htl
      · subst hhd
        have hsp : 1 ≤ split_at target rem := by
          rw [split_at]
          cases hfind : rfind_space rem (target - 300) (target + 300) with
          | none => simp only [Option.getD_none]; omega
          | some i =>
            simp only [Option.getD_some]
            have := (rfind_space_some hfind).1
            omega
        rw [← List.length_pos, List.length_take]
        have : 1 ≤ rem.length := by omega
        omega
      · have hlt := next_remaining_lt target rem (by omega) hlen
        exact ih (next_remaining target rem).length (by omega)
          (next_remaining target rem) le_rfl c htl

/-- C5 (amended): for every non-empty transcript the chunker returns
only non-empty chunks.  (Stated for any `300 < target`, which covers the
source's `target = CHUNK_SIZE`; the original claim fails on the empty
transcript, see `chunk_empty_transcript_counterexample`.) -/
theorem chunk_chunks_nonempty (target : Nat) (t : List Char)
    (ht : 300 < target) (hne : t ≠ []) :
    ∀ c ∈ chunk_transcript target t, c ≠ [] := by
  intro c hc
  rw [chunk_transcript] at hc
  by_cases hlen : t.length ≤ target
  · rw [if_pos hlen, List.mem_singleton] at hc
    subst hc; exact hne
  · rw [if_neg hlen] at hc
    exact chunk_loop_chunks_nonempty target ht t.length t le_rfl c hc

theorem chunk_chunks_nonempty_witness :
    ¬ (([] : List Char) ∈ chunk_transcript 301 ['h', 'i']) :=
  fun h => chunk_chunks_nonempty 301 ['h', 'i'] (by decide) (by decide) [] h rfl

/-- C5 counterexample: on the empty transcript, `_chunk_transcript`
returns `[""]`, a list containing an empty chunk — the claim "every
chunk is non-empty, including for the empty string" is false on the
source as written (first branch returns `[transcript]` unconditionally). -/
theorem chunk_empty_transcript_counterexample :
    ([] : List Char) ∈ chunk_transcript CHUNK_SIZE [] := by
  decide

/-- Size bound for every chunk the loop emits: a loop chunk is cut at
`split_at < target + 300`, the last chunk is the remainder of length at
most `target`. -/
theorem chunk_loop_length_le (target : Nat) (ht : 300 ≤ target) :
    ∀ n (rem : List Char), rem.length ≤ n →
      ∀ c ∈ chunk_loop target rem, c.length ≤ target + 300 := by
  intro n
  induction n using Nat.strong_induction_on with
  | _ n ih =>
    intro rem hn c hc
    by_cases hlen : rem.length ≤ target
    · rw [chunk_loop_exit _ _ hlen] at hc
      by_cases hne : rem.isEmpty
      · rw [if_pos hne] at hc; simp at hc
      · rw [if_neg hne, List.mem_singleton] at hc
        subst hc; omega
    · push_neg at hlen
      rw [chunk_loop_step _ _ (by omega) hlen] at hc
      rcases List.mem_cons.mp hc with hhd | htl
      · subst hhd
        have hsp : split_at target rem < target + 300 := by
          rw [split_at]
          cases hfind : rfind_space rem (target - 300) (target + 300) with
          | none => simp only [Option.getD_none]; omega
          | some i =>
            simp only [Option.getD_some]
            have := (rfind_space_some hfind).2.1
            omega
        rw [List.length_take]
        omega
      · have hlt := next_remaining_lt target rem (by omega) hlen
        exact ih (next_remaining target rem).length (by omega)
          (next_remaining target rem) le_rfl c htl

/-- C10: every chunk returned by the chunker has length at most
`target_size + 300` characters — a non-final chunk ends at a whitespace
index found in `[target - 300, target + 300)` (or exactly at `target`
when none exists), and the final remainder has length at most
`target`. -/
theorem chunk_size_bound (target : Nat) (t : List Char) (ht : 300 ≤ target) :
    ∀ c ∈ chunk_transcript target t, c.length ≤ target + 300 := by
  intro c hc
  rw [chunk_transcript] at hc
  by_cases hlen : t.length ≤ target
  · rw [if_pos hlen, List.mem_singleton] at hc
    subst hc; omega
  · rw [if_neg hlen] at hc
    exact chunk_loop_length_le target ht t.length t le_rfl c hc

theorem chunk_size_bound_witness :
    (['h', 'i'] : List Char).length ≤ 300 + 300 :=
  chunk_size_bound 300 ['h', 'i'] (by decide) ['h', 'i']
    (by rw [chunk_short_returns_whole 300 ['h', 'i'] (by decide)]; decide)

/-- C9: the splitting loop terminates — while `len(remaining) > target`
holds, one iteration removes at least `target - 300` characters (and
always at least one), and once `len(remaining) ≤ target` the loop exits
with the final remainder as the last chunk.  (Totality of `chunk_loop`
itself is the Lean-side termination argument built on the strict
decrease proved here.) -/
theorem chunk_loop_terminates (target : Nat) (rem : List Char) (ht : 300 ≤ target) :
    (target < rem.length →
      (next_remaining target rem).length + (target - 300) ≤ rem.length ∧
      (next_remaining target rem).length < rem.length) ∧
    (rem.length ≤ target →
      chunk_loop target rem = if rem.isEmpty then [] else [rem]) := by
  constructor
  · intro hl
    refine ⟨?_, next_remaining_lt target rem (by omega) hl⟩
    rw [next_remaining, split_at]
    cases hfind : rfind_space rem (target - 300) (target + 300) with
    | none =>
      simp only [Option.getD_none]
      have h1 := lstrip_length_le (rem.drop target)
      rw [List.length_drop] at h1
      omega
    | some i =>
      simp only [Option.getD_some]
      obtain ⟨hstart, _, hilen, _⟩ := rfind_space_some hfind
      have h1 := lstrip_length_le (rem.drop i)
      rw [List.length_drop] at h1
      omega
  · exact chunk_loop_exit target rem

set_option maxRecDepth 4000 in
theorem chunk_loop_terminates_witness :
    (next_remaining 300 (List.replicate 301 'a')).length + (300 - 300)
        ≤ (List.replicate 301 'a').length
      ∧ (next_remaining 300 (List.replicate 301 'a')).length
        < (List.replicate 301 'a').length :=
  (chunk_loop_terminates 300 (List.replicate 301 'a') (by decide)).1 (by decide)

/-! ### Word-sequence preservation machinery -/

theorem words_cons_ws {c : Char} (hc : c.isWhitespace = true) (ys : List Char) :
    words (c :: ys) = words ys := by
  rw [words, if_pos hc]

theorem words_cons_not_ws {c : Char} (hc : ¬ c.isWhitespace = true) (ys : List Char) :
    words (c :: ys)
      = (c :: ys.takeWhile (fun d => !d.isWhitespace)) ::
        words (ys.dropWhile (fun d => !d.isWhitespace)) := by
  rw [words, if_neg hc]

theorem words_nil : words [] = [] := by
  simp [words]

/-- Splitting a string at an interior whitespace character splits its
word sequence. -/
theorem words_append_ws_aux (c : Char) (hc : c.isWhitespace = true) :
    ∀ n (xs : List Char), xs.length ≤ n → ∀ ys,
      words (xs ++ c :: ys) = words xs ++ words ys := by
  intro n
  induction n using Nat.strong_induction_on with
  | _ n ih =>
    intro xs hn ys
    match xs with
    | [] =>
      rw [List.nil_append, words_cons_ws hc, words_nil, List.nil_append]
    | d :: ds =>
      by_cases hd : d.isWhitespace
      · rw [List.cons_append, words_cons_ws hd, words_cons_ws hd]
        have hds : ds.length < n := by
          simp only [List.length_cons] at hn; omega
        exact ih ds.length hds ds le_rfl ys
      · rw [List.cons_append, words_cons_not_ws hd, words_cons_not_ws hd]
        by_cases hall : ∀ a ∈ ds, (fun d => !d.isWhitespace) a = true
        · have htk : ds.takeWhile (fun d => !d.isWhitespace) = ds :=
            List.takeWhile_eq_self_iff.mpr hall
          have hdr : ds.dropWhile (fun d => !d.isWhitespace) = [] :=
            List.dropWhile_eq_nil_iff.mpr hall
          rw [List.takeWhile_append, List.dropWhile_append, htk, hdr]
          simp only [List.isEmpty_nil, if_true, List.takeWhile_cons,
            List.dropWhile_cons, hc, Bool.not_true, Bool.false_eq_true,
            if_false, if_pos rfl]
          rw [words_cons_ws hc, words_nil]
          simp
        · have htkne : (ds.takeWhile (fun d => !d.isWhitespace)).length ≠ ds.length := by
            intro hlen
            exact hall (List.takeWhile_eq_self_iff.mp
              ((List.takeWhile_prefix _).eq_of_length hlen))
          have hdrne : ds.dropWhile (fun d => !d.isWhitespace) ≠ [] := by
            intro hnil
            exact hall (List.dropWhile_eq_nil_iff.mp hnil)
          rw [List.takeWhile_append, List.dropWhile_append]
          rw [if_neg htkne, if_neg (by simpa [List.isEmpty_iff] using hdrne)]
          have hdslen : (ds.dropWhile (fun d => !d.isWhitespace)).length < n := by
            have h1 := (List.dropWhile_sublist (l := ds) (fun d => !d.isWhitespace)).length_le
            simp only [List.length_cons] at hn
            omega
          rw [ih _ hdslen _ le_rfl ys]
          simp

theorem words_append_ws_top (c : Char) (hc : c.isWhitespace = true) (xs ys : List Char) :
    words (xs ++ c :: ys) = words xs ++ words ys :=
  words_append_ws_aux c hc xs.length xs le_rfl ys

/-- Stripping leading whitespace does not change the word sequence. -/
theorem words_lstrip (s : List Char) : words (lstrip s) = words s := by
  induction s with
  | nil => rfl
  | cons c cs ih =>
    by_cases hc : c.isWhitespace
    · rw [lstrip_cons_of_ws hc, words_cons_ws hc]
      exact ih
    · rw [lstrip, if_neg hc]

/-- Splitting a string at a whitespace index splits its word sequence. -/
theorem words_take_drop (s : List Char) (i : Nat) (hi : i < s.length)
    (hsp : s.getD i 'x' = ' ') :
    words s = words (s.take i) ++ words (s.drop (i + 1)) := by
  have hc : s.getD i 'x' = ' ' := hsp
  rw [List.getD_eq_getElem s 'x' hi] at hc
  conv_lhs => rw [← List.take_append_drop i s, List.drop_eq_getElem_cons hi, hc]
  exact words_append_ws_top ' ' (by decide) _ _

/-- The word sequence of the text dropped at a whitespace index starts
after that index. -/
theorem words_drop_succ (s : List Char) (i : Nat) (hi : i < s.length)
    (hsp : s.getD i 'x' = ' ') :
    words (s.drop i) = words (s.drop (i + 1)) := by
  have hc : s.getD i 'x' = ' ' := hsp
  rw [List.getD_eq_getElem s 'x' hi] at hc
  rw [List.drop_eq_getElem_cons hi, hc, words_cons_ws (by decide)]

theorem chunk_loop_ne_nil (target : Nat) (rem : List Char) (hne : rem ≠ []) :
    chunk_loop target rem ≠ [] := by
  by_cases hlen : rem.length ≤ target
  · rw [chunk_loop_exit _ _ hlen, if_neg (by simpa [List.isEmpty_iff])]
    simp
  · push_neg at hlen
    rw [chunk_loop, if_neg (by omega)]
    dsimp only
    split <;> simp

/-- Core invariant for C3: as long as every iteration of the loop found
a space to split at, joining the chunks with single spaces preserves the
word sequence of the remaining text. -/
theorem words_join_chunk_loop (target : Nat) (ht : 300 ≤ target) :
    ∀ n (rem : List Char), rem.length ≤ n → clean_splits target rem = true →
      words (join_spaced (chunk_loop target rem)) = words rem := by
  intro n
  induction n using Nat.strong_induction_on with
  | _ n ih =>
    intro rem hn hclean
    by_cases hlen : rem.length ≤ target
    · rw [chunk_loop_exit _ _ hlen]
      by_cases hne : rem.isEmpty
      · rw [if_pos hne, List.isEmpty_iff.mp hne]
        rfl
      · rw [if_neg hne]
        rfl
    · push_neg at hlen
      have hsome := clean_splits_isSome target rem hlen hclean
      obtain ⟨i, hfind⟩ := Option.isSome_iff_exists.mp hsome
      obtain ⟨hstart, hstop, hilen, hsp⟩ := rfind_space_some hfind
      have hsplit : split_at target rem = i := by
        rw [split_at, hfind, Option.getD_some]
      have hclean2 : clean_splits target (next_remaining target rem) = true := by
        rw [← clean_splits_step target rem (by omega) hlen hsome]
        exact hclean
      have hlt := next_remaining_lt target rem (by omega) hlen
      have hwnext : words (next_remaining target rem) = words (rem.drop (i + 1)) := by
        rw [next_remaining, hsplit, words_lstrip, words_drop_succ rem i hilen hsp]
      rw [chunk_loop_step target rem (by omega) hlen, hsplit]
      have hih : words (join_spaced (chunk_loop target (next_remaining target rem)))
          = words (next_remaining target rem) :=
        ih (next_remaining target rem).length (by omega)
          (next_remaining target rem) le_rfl hclean2
      cases hrest : next_remaining target rem with
      | nil =>
        rw [hrest] at hih hwnext
        have hempty : chunk_loop target ([] : List Char) = [] := by
          rw [chunk_loop_exit target [] (by simp)]
          simp
        rw [hempty]
        show words (rem.take i) = words rem
        rw [words_take_drop rem i hilen hsp, ← hwnext, words_nil, List.append_nil]
      | cons r rs =>
        rw [hrest] at hih hwnext
        have hnil := chunk_loop_ne_nil target (r :: rs) (by simp)
        cases hcl : chunk_loop target (r :: rs) with
        | nil => exact absurd hcl hnil
        | cons l0 ls =>
          rw [hcl] at hih
          show words (rem.take i ++ ' ' :: join_spaced (l0 :: ls)) = words rem
          rw [words_append_ws_top ' ' (by decide), hih, hwnext,
            words_take_drop rem i hilen hsp]

/-- C3 (amended): for every transcript `T` with `len(T) > target_size`,
if every iteration of the chunking loop found a space within the
`±300`-character search window (`clean_splits`), then concatenating the
returned chunks joined by single spaces reproduces `T`'s word sequence.
The original unconditional claim is false: when no space exists near the
boundary the source splits mid-word, which breaks one word into two —
see `chunk_words_counterexample`.  (The `len(T) > target_size`
hypothesis of the claim is not needed: the identity also holds trivially
for short transcripts.) -/
theorem chunk_words_preserved (target : Nat) (t : List Char)
    (ht : 300 ≤ target) (hclean : clean_splits target t = true) :
    words (join_spaced (chunk_transcript target t)) = words t := by
  rw [chunk_transcript]
  by_cases hlen : t.length ≤ target
  · rw [if_pos hlen]
    rfl
  · rw [if_neg hlen]
    exact words_join_chunk_loop target ht t.length t le_rfl hclean

/-- Exit equation for `clean_splits`. -/
theorem clean_splits_exit (target : Nat) (rem : List Char)
    (h : rem.length ≤ target) : clean_splits target rem = true := by
  rw [clean_splits, if_pos h]

set_option maxRecDepth 40000 in
/-- Concrete evaluation: a 311-character transcript with a space at
index 150 splits (for `target = 300`) into exactly the two word-aligned
chunks. -/
theorem chunk_transcript_two_chunks :
    chunk_transcript 300 (List.replicate 150 'a' ++ ' ' :: List.replicate 160 'a')
      = [List.replicate 150 'a', List.replicate 160 'a'] := by
  have h1 : split_at 300 (List.replicate 150 'a' ++ ' ' :: List.replicate 160 'a')
      = 150 := by decide
  have h2 : next_remaining 300 (List.replicate 150 'a' ++ ' ' :: List.replicate 160 'a')
      = List.replicate 160 'a' := by decide
  rw [chunk_transcript, if_neg (by decide)]
  rw [chunk_loop_step 300 _ (by norm_num) (by decide), h1, h2]
  rw [chunk_loop_exit 300 _ (by decide), if_neg (by decide)]
  decide

set_option maxRecDepth 40000 in
/-- Concrete evaluation: on the same transcript every split lands on a
space. -/
theorem clean_splits_two_chunks :
    clean_splits 300 (List.replicate 150 'a' ++ ' ' :: List.replicate 160 'a')
      = true := by
  have h2 : next_remaining 300 (List.replicate 150 'a' ++ ' ' :: List.replicate 160 'a')
      = List.replicate 160 'a' := by decide
  rw [clean_splits_step 300 _ (by norm_num) (by decide) (by decide), h2]
  exact clean_splits_exit 300 _ (by decide)

theorem chunk_words_preserved_witness :
    words (join_spaced (chunk_transcript 300
        (List.replicate 150 'a' ++ ' ' :: List.replicate 160 'a')))
      = words (List.replicate 150 'a' ++ ' ' :: List.replicate 160 'a') :=
  chunk_words_preserved 300 _ (by norm_num) clean_splits_two_chunks

/-- A string of non-whitespace characters is a single word. -/
theorem words_all_not_ws (s : List Char) (hne : s ≠ [])
    (h : ∀ a ∈ s, ¬ a.isWhitespace = true) : words s = [s] := by
  cases s with
  | nil => exact absurd rfl hne
  | cons c cs =>
    rw [words_cons_not_ws (h c (by simp))]
    have hall : ∀ a ∈ cs, (fun d : Char => !d.isWhitespace) a = true := by
      intro a ha
      simp only [Bool.not_eq_true']
      exact Bool.not_eq_true _ ▸ (by simpa using h a (by simp [ha]))
    rw [List.takeWhile_eq_self_iff.mpr hall, List.dropWhile_eq_nil_iff.mpr hall,
      words_nil]

set_option maxRecDepth 40000 in
/-- C3 counterexample: a transcript of 301 identical letters (one single
word, no spaces) at `target_size = 300` is split mid-word, so the joined
chunks have word sequence `[a^300, a]` while the transcript's is
`[a^301]`.  The claim as stated — for every transcript longer than the
target — is therefore false. -/
theorem chunk_words_counterexample :
    300 < (List.replicate 301 'a').length ∧
    words (join_spaced (chunk_transcript 300 (List.replicate 301 'a')))
      ≠ words (List.replicate 301 'a') := by
  refine ⟨by decide, ?_⟩
  have h1 : split_at 300 (List.replicate 301 'a') = 300 := by decide
  have h2 : next_remaining 300 (List.replicate 301 'a') = ['a'] := by decide
  rw [chunk_transcript, if_neg (by decide)]
  rw [chunk_loop_step 300 _ (by norm_num) (by decide), h1, h2]
  rw [chunk_loop_exit 300 ['a'] (by decide), if_neg (by decide)]
  have h3 : List.take 300 (List.replicate 301 'a') = List.replicate 300 'a' := by
    decide
  rw [h3]
  have hrep : ∀ n : Nat, ∀ a ∈ List.replicate n 'a', ¬ a.isWhitespace = true := by
    intro n a ha
    rw [List.eq_of_mem_replicate ha]
    decide
  show words (join_spaced [List.replicate 300 'a', ['a']])
      ≠ words (List.replicate 301 'a')
  have h4 : join_spaced [List.replicate 300 'a', ['a']]
      = List.replicate 300 'a' ++ ' ' :: ['a'] := rfl
  rw [h4, words_append_ws_top ' ' (by decide),
    words_all_not_ws (List.replicate 300 'a') (by simp) (hrep 300),
    words_all_not_ws ['a'] (by simp) (by intro a ha; simp at ha; rw [ha]; decide),
    words_all_not_ws (List.replicate 301 'a') (by simp) (hrep 301)]
  intro hcontra
  have hlen := congrArg List.length hcontra
  simp at hlen

/-! ### Summarization engine (post_generator.summarize_episode) -/

/-- Quality tier of an external model call: `low` is the cheap per-chunk
extraction model (`_chunk_model`, gpt-4o-mini), `high` the synthesis
model (`_synthesis_model`, gpt-4o). -/
inductive Tier
  | low
  | high
deriving DecidableEq

/-- Model of `summarize_episode(channel_name, episode_title, transcript)`.

The oracle `ok i` abstracts the outcome of the `i`-th external call of
the run (`_call` plus `_extract_json` inside `try/except`): `true` means
the call returned parseable JSON, `false` that it raised.  Prompt
contents, channel and title do not influence control flow and are
dropped; a successful summary is abstracted to `()`.  The chunk-size
target is a parameter, fixed to `CHUNK_SIZE` by the source.

Returns the outcome (`none` = the run failed) paired with the trace of
external call tiers, in call order:
* `n = 1` chunk — one single-pass call with the synthesis model;
* otherwise — one low-tier call per chunk (call `i` for chunk `i`,
  failures logged and skipped), then, if any partial summary was
  collected, one high-tier synthesis call (index `n`); if all chunk
  calls failed, the run returns `None` before synthesis. -/
def summarize_episode (ok : Nat → Bool) (target : Nat) (transcript : List Char) :
    Option Unit × List Tier :=
  let chunks := chunk_transcript target transcript
  let n := chunks.length
  if n = 1 then
    (if ok 0 then some () else none, [Tier.high])
  else
    let partial_summaries := (List.range n).filter (fun i => ok i)
    if partial_summaries.isEmpty then
      (none, List.replicate n Tier.low)
    else
      (if ok n then some () else none,
        List.replicate n Tier.low ++ [Tier.high])

/-- C1: a transcript chunking to exactly one chunk makes exactly one
high-tier call and no low-tier calls; a transcript chunking to `N > 1`
chunks makes exactly `N` low-tier extraction calls plus exactly one
high-tier synthesis call, as long as at least one chunk call succeeds,
regardless of how many fail.  The trace lists every external call
attempt exactly once, so no call is ever retried. -/
theorem summarize_call_counts (ok : Nat → Bool) (target : Nat) (t : List Char) :
    ((chunk_transcript target t).length = 1 →
      (summarize_episode ok target t).2 = [Tier.high]) ∧
    (∀ n, (chunk_transcript target t).length = n → 1 < n →
      (∃ i, i < n ∧ ok i = true) →
      (summarize_episode ok target t).2
        = List.replicate n Tier.low ++ [Tier.high]) := by
  constructor
  · intro h1
    rw [summarize_episode]
    simp [h1]
  · intro n hn hn1 ⟨i, hi, hoki⟩
    rw [summarize_episode]
    simp only [hn]
    rw [if_neg (by omega)]
    have hne : (List.range n).filter (fun i => ok i) ≠ [] := by
      intro hnil
      rw [List.filter_eq_nil_iff] at hnil
      exact hnil i (List.mem_range.mpr hi) (by simp [hoki])
    rw [if_neg (by simpa [List.isEmpty_iff] using hne)]

theorem summarize_call_counts_witness :
    (summarize_episode (fun i => decide (i = 0)) 300
        (List.replicate 150 'a' ++ ' ' :: List.replicate 160 'a')).2
      = List.replicate 2 Tier.low ++ [Tier.high] :=
  (summarize_call_counts (fun i => decide (i = 0)) 300
      (List.replicate 150 'a' ++ ' ' :: List.replicate 160 'a')).2 2
    (by rw [chunk_transcript_two_chunks]; rfl) (by omega)
    ⟨0, by omega, by decide⟩

/-- C2: if the transcript yields `N > 1` chunks and every one of the `N`
per-chunk extraction calls fails, `summarize_episode` returns `None`
and the trace contains the `N` low-tier calls only — the high-tier
synthesis call is never made. -/
theorem summarize_all_chunks_fail (ok : Nat → Bool) (target : Nat) (t : List Char)
    (n : Nat) (hn : (chunk_transcript target t).length = n) (hn1 : 1 < n)
    (hfail : ∀ i, i < n → ok i = false) :
    summarize_episode ok target t = (none, List.replicate n Tier.low) := by
  rw [summarize_episode]
  simp only [hn]
  rw [if_neg (by omega)]
  have hnil : (List.range n).filter (fun i => ok i) = [] := by
    rw [List.filter_eq_nil_iff]
    intro a ha
    simp [hfail a (List.mem_range.mp ha)]
  rw [if_pos (by simp [hnil])]

theorem summarize_all_chunks_fail_witness :
    summarize_episode (fun _ => false) 300
        (List.replicate 150 'a' ++ ' ' :: List.replicate 160 'a')
      = (none, List.replicate 2 Tier.low) :=
  summarize_all_chunks_fail (fun _ => false) 300
    (List.replicate 150 'a' ++ ' ' :: List.replicate 160 'a') 2
    (by rw [chunk_transcript_two_chunks]; rfl) (by omega)
    (fun _ _ => rfl)

/-! ### Schedule slot allocator (scheduler.get_schedule_slots)

Local datetimes are modelled as absolute minutes on a linear timeline:
`now` is the current local time in minutes, `now / 1440` today's date,
`now % 1440` the local time of day.  A posting window string "HH:MM"
is abstracted to its minute-of-day `60 * HH + MM`.  The IANA zone is
modelled as a fixed offset: `astimezone(UTC)` adds `off` minutes
(e.g. 300 for America/New_York standard time); daylight-saving
transitions of the zoneinfo database are not modelled.  The final
`strftime` keeps the instant unchanged, so slots stay numeric. -/

/-- The `window_dts` list of `get_schedule_slots`: today's occurrence of
each configured window, keeping only those strictly after `now`
(in configured order). -/
def window_dts (now : Nat) (windows : List Nat) : List Nat :=
  (windows.map (fun w => now / 1440 * 1440 + w)).filter (fun dt => now < dt)

/-- The working set of window instants after the all-passed fallback:
if every window of today has passed, use tomorrow's first configured
window only (`windows[0]`). -/
def effective_dts (now : Nat) (w0 : Nat) (windows : List Nat) : List Nat :=
  let wdts := window_dts now windows
  if wdts.isEmpty then [(now / 1440 + 1) * 1440 + w0] else wdts

/-- The slot assigned to the `i`-th requested post (0-indexed): window
`i mod len` of the working set, plus `5 * (i div len)` minutes once the
list laps, converted to UTC by the fixed offset. -/
def schedule_slot (off : Nat) (dts : List Nat) (i : Nat) : Nat :=
  let window := dts.getD (i % dts.length) 0
  let overflow := i / dts.length
  let window := if 0 < overflow then window + overflow * 5 else window
  window + off

/-- `get_schedule_slots(count, schedule_config)` from `scheduler.py`.
`none` models the `IndexError` raised by the `windows[0]` fallback when
the configured window list is empty (with no windows, the fallback
branch is always reached). -/
def get_schedule_slots (count : Nat) (windows : List Nat) (now off : Nat) :
    Option (List Nat) :=
  match windows with
  | [] => none
  | w0 :: _ =>
    some ((List.range count).map (schedule_slot off (effective_dts now w0 windows)))

theorem effective_dts_ne_nil (now w0 : Nat) (windows : List Nat) :
    effective_dts now w0 windows ≠ [] := by
  rw [effective_dts]
  by_cases h : (window_dts now windows).isEmpty
  · rw [if_pos h]; simp
  · rw [if_neg h]
    simpa [List.isEmpty_iff] using h

theorem schedule_slot_eq (off : Nat) (dts : List Nat) (i : Nat) :
    schedule_slot off dts i
      = dts.getD (i % dts.length) 0 + i / dts.length * 5 + off := by
  rw [schedule_slot]
  by_cases h : 0 < i / dts.length
  · rw [if_pos h]
  · rw [if_neg h]
    omega

theorem slots_getD (count : Nat) (f : Nat → Nat) (i : Nat) (hi : i < count) :
    ((List.range count).map f).getD i 0 = f i := by
  have hlen : i < ((List.range count).map f).length := by
    simpa using hi
  rw [List.getD_eq_getElem _ _ hlen, List.getElem_map, List.getElem_range]

/-- A strictly sorted window list yields a strictly sorted working
set. -/
theorem effective_dts_pairwise (now w0 : Nat) (windows : List Nat)
    (hsorted : windows.Pairwise (· < ·)) :
    (effective_dts now w0 windows).Pairwise (· < ·) := by
  rw [effective_dts]
  by_cases h : (window_dts now windows).isEmpty
  · rw [if_pos h]
    simp
  · rw [if_neg h]
    exact List.Pairwise.filter _
      (List.Pairwise.map _ (fun a b hab => by omega) hsorted)

theorem pairwise_getD_lt {dts : List Nat} (h : dts.Pairwise (· < ·))
    {i j : Nat} (hi : i < dts.length) (hj : j < dts.length) (hij : i < j) :
    dts.getD i 0 < dts.getD j 0 := by
  rw [List.getD_eq_getElem _ _ hi, List.getD_eq_getElem _ _ hj]
  exact List.pairwise_iff_getElem.mp h i j hi hj hij

/-- C8: `get_schedule_slots` always returns exactly `count` timestamps
(given at least one configured window — with an empty window list the
source raises `IndexError`, modelled as `none`); when the configured
windows are chronologically sorted and `count` does not exceed the
number of windows in the working set, the output is non-decreasing in
assignment order; and within each overflow lap group (equal `i div len`)
the slots strictly increase. -/
theorem schedule_slots_shape (count w0 : Nat) (ws : List Nat) (now off : Nat) :
    ∃ slots, get_schedule_slots count (w0 :: ws) now off = some slots ∧
      slots.length = count ∧
      ((w0 :: ws).Pairwise (· < ·) →
        (count ≤ (effective_dts now w0 (w0 :: ws)).length →
          slots.Pairwise (· ≤ ·)) ∧
        (∀ i j, i < count → j < count →
          i / (effective_dts now w0 (w0 :: ws)).length
            = j / (effective_dts now w0 (w0 :: ws)).length →
          i < j → slots.getD i 0 < slots.getD j 0)) := by
  refine ⟨_, rfl, by simp, ?_⟩
  intro hsorted
  have hdne : effective_dts now w0 (w0 :: ws) ≠ [] :=
    effective_dts_ne_nil now w0 (w0 :: ws)
  have hdlen : 0 < (effective_dts now w0 (w0 :: ws)).length :=
    List.length_pos.mpr hdne
  have hdp : (effective_dts now w0 (w0 :: ws)).Pairwise (· < ·) :=
    effective_dts_pairwise now w0 _ hsorted
  constructor
  · intro hcount
    rw [List.pairwise_map]
    refine (List.pairwise_lt_range count).imp_of_mem ?_
    intro i j hi hj hij
    rw [List.mem_range] at hi hj
    rw [schedule_slot_eq, schedule_slot_eq]
    have hiL : i < (effective_dts now w0 (w0 :: ws)).length := by omega
    have hjL : j < (effective_dts now w0 (w0 :: ws)).length := by omega
    rw [Nat.mod_eq_of_lt hiL, Nat.mod_eq_of_lt hjL,
      Nat.div_eq_of_lt hiL, Nat.div_eq_of_lt hjL]
    have := pairwise_getD_lt hdp hiL hjL hij
    omega
  · intro i j hi hj hlap hij
    rw [slots_getD _ _ i hi, slots_getD _ _ j hj,
      schedule_slot_eq, schedule_slot_eq]
    have h1 := Nat.div_add_mod i (effective_dts now w0 (w0 :: ws)).length
    have h2 := Nat.div_add_mod j (effective_dts now w0 (w0 :: ws)).length
    rw [← hlap] at h2
    have hmod : i % (effective_dts now w0 (w0 :: ws)).length
        < j % (effective_dts now w0 (w0 :: ws)).length := by omega
    have := pairwise_getD_lt hdp (Nat.mod_lt i hdlen) (Nat.mod_lt j hdlen) hmod
    rw [hlap]
    omega

theorem schedule_slots_shape_witness :
    ((get_schedule_slots 2 [540, 720] 0 300).getD []).Pairwise (· ≤ ·) := by
  obtain ⟨slots, hs, hlen, h⟩ := schedule_slots_shape 2 540 [720] 0 300
  rw [hs]
  exact (h (by decide)).1 (by decide)

/-- C6: when every configured posting window has already passed (its
minute-of-day is at most the current local minute-of-day),
`get_schedule_slots` returns exactly `count` slots, all anchored at
tomorrow's first configured window, the `i`-th slot offset by
`i * 5` minutes from that single shared base. -/
theorem schedule_all_windows_passed (count w0 : Nat) (ws : List Nat) (now off : Nat)
    (hpassed : ∀ w ∈ w0 :: ws, w ≤ now % 1440) :
    ∃ slots, get_schedule_slots count (w0 :: ws) now off = some slots ∧
      slots.length = count ∧
      ∀ i, i < count →
        slots.getD i 0 = (now / 1440 + 1) * 1440 + w0 + i * 5 + off := by
  have hwdts : window_dts now (w0 :: ws) = [] := by
    rw [window_dts, List.filter_eq_nil_iff]
    intro dt hdt
    rw [List.mem_map] at hdt
    obtain ⟨w, hw, rfl⟩ := hdt
    have h1 := hpassed w hw
    have h2 := Nat.div_add_mod now 1440
    simp only [decide_eq_true_eq]
    omega
  have heff : effective_dts now w0 (w0 :: ws)
      = [(now / 1440 + 1) * 1440 + w0] := by
    rw [effective_dts, hwdts]
    simp
  refine ⟨_, rfl, by simp, ?_⟩
  intro i hi
  rw [slots_getD _ _ i hi, schedule_slot_eq, heff]
  simp [Nat.mod_one]

theorem schedule_all_windows_passed_witness :
    ((get_schedule_slots 2 [540, 720] 1380 300).getD []).getD 1 0
      = (1380 / 1440 + 1) * 1440 + 540 + 1 * 5 + 300 := by
  obtain ⟨slots, hs, hlen, hval⟩ :=
    schedule_all_windows_passed 2 540 [720] 1380 300 (by decide)
  rw [hs]
  exact hval 1 (by omega)

/-- C4 counterexample: the slot sequence follows the configured window
order, which the source never sorts.  With windows configured as
`["17:00", "09:00"]` (minutes `[1020, 540]`), called at local midnight
with a 5-hour UTC offset, two requested slots come out as
`[1320, 840]` — strictly decreasing, refuting the claimed unconditional
non-decreasing order. -/
theorem schedule_not_monotone_counterexample :
    get_schedule_slots 2 [1020, 540] 0 300 = some [1320, 840] ∧
    ¬ (1320 : Nat) ≤ 840 := by
  constructor
  · rfl
  · decide

/-- C4 (amended): for every count and non-empty window list the slots
follow the code's round-robin law — the `i`-th slot is the
`(i mod len)`-th future window instant plus `5 * (i div len)` minutes,
converted to UTC — and they are strictly increasing in assignment order
provided the windows are strictly chronologically sorted and `count`
does not exceed the number of windows in the working set.  Without the
sortedness assumption the order can decrease
(`schedule_not_monotone_counterexample`), and once overflow laps occur
the sequence returns to the first window and is not monotone, so the
original unconditional "non-decreasing, effectively unique" claim is
false. -/
theorem schedule_round_robin (count w0 : Nat) (ws : List Nat) (now off : Nat) :
    ∃ slots, get_schedule_slots count (w0 :: ws) now off = some slots ∧
      (∀ i, i < count →
        slots.getD i 0
          = (effective_dts now w0 (w0 :: ws)).getD
              (i % (effective_dts now w0 (w0 :: ws)).length) 0
            + i / (effective_dts now w0 (w0 :: ws)).length * 5 + off) ∧
      ((w0 :: ws).Pairwise (· < ·) →
        count ≤ (effective_dts now w0 (w0 :: ws)).length →
        slots.Pairwise (· < ·)) := by
  refine ⟨_, rfl, ?_, ?_⟩
  · intro i hi
    rw [slots_getD _ _ i hi, schedule_slot_eq]
  · intro hsorted hcount
    have hdp : (effective_dts now w0 (w0 :: ws)).Pairwise (· < ·) :=
      effective_dts_pairwise now w0 _ hsorted
    rw [List.pairwise_map]
    refine (List.pairwise_lt_range count).imp_of_mem ?_
    intro i j hi hj hij
    rw [List.mem_range] at hi hj
    rw [schedule_slot_eq, schedule_slot_eq]
    have hiL : i < (effective_dts now w0 (w0 :: ws)).length := by omega
    have hjL : j < (effective_dts now w0 (w0 :: ws)).length := by omega
    rw [Nat.mod_eq_of_lt hiL, Nat.mod_eq_of_lt hjL,
      Nat.div_eq_of_lt hiL, Nat.div_eq_of_lt hjL]
    have := pairwise_getD_lt hdp hiL hjL hij
    omega

theorem schedule_round_robin_witness :
    ((get_schedule_slots 2 [540, 720] 0 300).getD []).Pairwise (· < ·) := by
  obtain ⟨slots, hs, _, hmono⟩ := schedule_round_robin 2 540 [720] 0 300
  rw [hs]
  exact hmono (by decide) (by decide)
